import Mathlib

/-!
Verification of the operation-chain optimizer in `src/core/OpOptimizers.cpp`.

The optimizer consults each operation only through three boolean queries
(`isNoOp`, `isSameType`, `isInverse`), implemented by virtual methods that may
in principle answer differently on every call (the surrounding documentation
explicitly contemplates inconsistent or oscillating `isInverse` relations).
We therefore model the queries as an oracle indexed by a call counter `t`
(the number of predicate queries made so far in the optimize call); an
operation set with honest, state-free predicates is the special case
`pureOracle` whose answers ignore the counter.  Every function threads the
counter through and reports its final value, so "number of predicate calls
made" is observable as the difference of counters.
-/

/-- The capability contract the optimizer requires from operations, indexed by
a query counter so that stateful (oscillating) implementations are
representable.  `isNoOp t a` is the answer the operation `a` gives to the
identity query when it is the `t`-th predicate query of the run, and similarly
for the same-type and inverse queries on an ordered pair of operations. -/
structure Oracle (α : Type) where
  isNoOp : Nat → α → Bool
  isSameType : Nat → α → α → Bool
  isInverse : Nat → α → α → Bool

/-- An operation set whose predicates are honest pure functions of the
operations (the answers do not depend on the query counter). -/
def pureOracle (pn : α → Bool) (st inv : α → α → Bool) : Oracle α where
  isNoOp := fun _ a => pn a
  isSameType := fun _ a b => st a b
  isInverse := fun _ a b => inv a b

/-- `const int MAX_OPTIMIZATION_PASSES = 8;` from OpOptimizers.cpp. -/
def MAX_OPTIMIZATION_PASSES : Nat := 8

/-- `RemoveNoOps` from OpOptimizers.cpp: scan the chain left to right, erasing
every operation whose `isNoOp` query answers true and counting the erasures.
Returns the remaining chain, the count, and the advanced query counter (one
`isNoOp` query per scanned element). -/
def RemoveNoOps (O : Oracle α) : Nat → List α → List α × Nat × Nat
  | t, [] => ([], 0, t)
  | t, a :: rest =>
    if O.isNoOp t a then
      let r := RemoveNoOps O (t + 1) rest
      (r.1, r.2.1 + 1, r.2.2)
    else
      let r := RemoveNoOps O (t + 1) rest
      (a :: r.1, r.2.1, r.2.2)

/-- Termination measure for the cursor loop of `RemoveInverseOps`: each
iteration either advances the cursor or shortens the chain by two while
backing the cursor up by at most one. -/
def invMeasure (l : List α) (c : Int) : Nat :=
  (3 * (l.length : Int) + 2 - c).toNat

/-- The cursor loop of `RemoveInverseOps` from OpOptimizers.cpp, with an
explicit iteration budget `fuel` so that the loop body is a structurally
recursive (hence executable) function.  State: query counter `t`, chain `l`,
signed cursor `c` (the source's `int firstindex`), removed-pair count.
The loop condition is `firstindex < static_cast<int>(opVec.size()-1)`,
modelled as the exact signed comparison `c < length - 1`.  The two element
reads `opVec[firstindex]` and `opVec[firstindex+1]` are modelled by optional
indexing; an out-of-bounds read, like fuel exhaustion, yields `none`, so a
`some` result certifies that every access was in bounds and the budget
sufficed.  On a removed pair the chain loses the two elements at the cursor
and the cursor becomes `max 0 (c - 1)`, exactly as in the source. -/
def removeInverseGo (O : Oracle α) : Nat → Nat → List α → Int → Nat →
    Option (List α × Nat × Nat)
  | 0, t, l, c, count =>
    if c < (l.length : Int) - 1 then none
    else some (l, count, t)
  | fuel + 1, t, l, c, count =>
    if c < (l.length : Int) - 1 then
      match l[c.toNat]?, l[c.toNat + 1]? with
      | some first, some second =>
        if O.isSameType t first second then
          if O.isInverse (t + 1) first second then
            removeInverseGo O fuel (t + 2)
              (l.take c.toNat ++ l.drop (c.toNat + 2)) (max 0 (c - 1)) (count + 1)
          else
            removeInverseGo O fuel (t + 2) l (c + 1) count
        else
          removeInverseGo O fuel (t + 1) l (c + 1) count
      | _, _ => none
    else
      some (l, count, t)

/-- `RemoveInverseOps` from OpOptimizers.cpp: run the cursor loop from
cursor 0 with a budget that provably exceeds the loop's iteration count
(`removeInverseGo_isSome`); the default of the `getD` is never used. -/
def RemoveInverseOps (O : Oracle α) (t : Nat) (l : List α) : List α × Nat × Nat :=
  (removeInverseGo O (3 * l.length + 3) t l 0 0).getD (l, 0, t)

/-- One round of the scheduler loop in `OptimizeOpVec`: run `RemoveNoOps`,
then `RemoveInverseOps` on its result.  Returns the chain, the no-op count,
the inverse-pair count, and the advanced query counter. -/
def runRound (O : Oracle α) (t : Nat) (l : List α) : List α × Nat × Nat × Nat :=
  let r1 := RemoveNoOps O t l
  let r2 := RemoveInverseOps O r1.2.2 r1.1
  (r2.1, r1.2.1, r2.2.1, r2.2.2)

/-- The scheduler loop of `OptimizeOpVec` (`while(passes<=MAX_OPTIMIZATION_PASSES)`),
with an explicit budget `fuel` bounding the number of executed rounds; `none`
means the budget ran out with the loop condition still true (shown unreachable
for the budget used by `OptimizeOpVec`).  State: query counter `t`, chain `l`,
pass counter `passes`, accumulated totals `tn` (no-ops) and `ti` (inverse
pairs).  A round whose two counts are both zero breaks out of the loop without
incrementing `passes` or the totals, exactly as in the source. -/
def optimizeLoop (O : Oracle α) : Nat → Nat → List α → Nat → Nat → Nat →
    Option (List α × Nat × Nat × Nat × Nat)
  | 0, t, l, passes, tn, ti =>
    if passes ≤ MAX_OPTIMIZATION_PASSES then none
    else some (l, passes, tn, ti, t)
  | fuel + 1, t, l, passes, tn, ti =>
    if passes ≤ MAX_OPTIMIZATION_PASSES then
      let r := runRound O t l
      if r.2.1 == 0 && r.2.2.1 == 0 then
        some (r.1, passes, tn, ti, r.2.2.2)
      else
        optimizeLoop O fuel r.2.2.2 r.1 (passes + 1) (tn + r.2.1) (ti + r.2.2.1)
    else
      some (l, passes, tn, ti, t)

/-- The diagnostic messages `OptimizeOpVec` can hand to `LogDebug`, abstracted
to their identity and numeric payload: the pre-optimization header (emitted
when debug logging is enabled), the max-passes message with the pass count it
prints, and the post-optimization summary with original size, final size, pass
count, and the two removal totals. -/
inductive LogEvent where
  | preOptimize : LogEvent
  | maxPassesReached : Nat → LogEvent
  | summary : Nat → Nat → Nat → Nat → Nat → LogEvent
deriving DecidableEq, Repr

/-- The observable outcome of one `OptimizeOpVec` call: the final chain, the
pass counter, the two removal totals, and the ordered list of emitted log
messages. -/
structure OptResult (α : Type) where
  ops : List α
  passes : Nat
  totalNoops : Nat
  totalInverseOps : Nat
  log : List LogEvent
deriving DecidableEq, Repr

/-- `OptimizeOpVec` from OpOptimizers.cpp.  An empty chain returns at once
with no logging and no passes.  Otherwise: the debug header is logged if
debug logging is enabled, the scheduler loop runs from pass counter 0 with
query counter 0, the max-passes message is logged exactly when the final pass
counter equals `MAX_OPTIMIZATION_PASSES` (this `LogDebug` call is not gated on
the debug flag in the source), and the summary is logged if debug logging is
enabled. -/
def OptimizeOpVec (debug : Bool) (O : Oracle α) (ops : List α) : OptResult α :=
  if ops.isEmpty then
    { ops := ops, passes := 0, totalNoops := 0, totalInverseOps := 0, log := [] }
  else
    let pre : List LogEvent := if debug then [LogEvent.preOptimize] else []
    let r := (optimizeLoop O (MAX_OPTIMIZATION_PASSES + 2) 0 ops 0 0 0).getD
      (ops, 0, 0, 0, 0)
    let mid : List LogEvent :=
      if r.2.1 == MAX_OPTIMIZATION_PASSES then [LogEvent.maxPassesReached r.2.1] else []
    let post : List LogEvent :=
      if debug then [LogEvent.summary ops.length r.1.length r.2.1 r.2.2.1 r.2.2.2.1]
      else []
    { ops := r.1, passes := r.2.1, totalNoops := r.2.2.1,
      totalInverseOps := r.2.2.2.1, log := pre ++ mid ++ post }

/-- The cancellation algorithm exactly as §4.2 of the documentation words it,
over a pure condition on the ordered adjacent pair: Nat cursor starting at 0,
stop once the cursor passes the second-to-last valid index, on a hit remove
the pair, bump the count and move the cursor back one position clamped at 0
(Nat subtraction is that clamp), otherwise advance.  Same iteration budget
discipline as `removeInverseGo`. -/
def inversePairScanGo (cond : α → α → Bool) : Nat → List α → Nat → Nat →
    Option (List α × Nat)
  | fuel, l, c, count =>
    if h : c + 1 < l.length then
      match fuel with
      | 0 => none
      | fuel + 1 =>
        if cond (l.get ⟨c, Nat.lt_of_succ_lt h⟩) (l.get ⟨c + 1, h⟩) then
          inversePairScanGo cond fuel (l.take c ++ l.drop (c + 2)) (c - 1) (count + 1)
        else
          inversePairScanGo cond fuel l (c + 1) count
    else
      some (l, count)

/-- The documented cancellation pass (§4.2) run from cursor 0 with a
sufficient budget. -/
def inversePairScan (cond : α → α → Bool) (l : List α) : List α × Nat :=
  (inversePairScanGo cond (3 * l.length + 3) l 0 0).getD (l, 0)

/-- Trace checker for the safety claims about the cursor loop: replays the
loop of `RemoveInverseOps` and returns true only if, at every loop entry, the
cursor is nonnegative and, whenever the loop body runs, both element accesses
are within bounds (and the budget never runs out). -/
def invTraceOk (O : Oracle α) : Nat → Nat → List α → Int → Bool
  | fuel, t, l, c =>
    decide (0 ≤ c) &&
    (if c < (l.length : Int) - 1 then
      match fuel, l[c.toNat]?, l[c.toNat + 1]? with
      | fuel + 1, some first, some second =>
        decide (c.toNat + 1 < l.length) &&
        (if O.isSameType t first second then
          if O.isInverse (t + 1) first second then
            invTraceOk O fuel (t + 2)
              (l.take c.toNat ++ l.drop (c.toNat + 2)) (max 0 (c - 1))
          else
            invTraceOk O fuel (t + 2) l (c + 1)
        else
          invTraceOk O fuel (t + 1) l (c + 1))
      | _, _, _ => false
    else
      true)

/-- Decidable check that no ordered adjacent pair of the chain satisfies the
condition. -/
def noAdjPairB (cond : α → α → Bool) : List α → Bool
  | [] => true
  | [_] => true
  | a :: b :: rest => !cond a b && noAdjPairB cond (b :: rest)

/-- Operations whose three predicates always answer false: nothing is a no-op
and no pair is ever removed. -/
def trivOracle : Oracle Nat :=
  pureOracle (fun _ => false) (fun _ _ => false) (fun _ _ => false)

/-- A stateful identity predicate that makes every one of nine scheduler
rounds on a nine-element chain remove exactly one operation: it answers true
exactly on the query counts at which each round's `RemoveNoOps` scan reads its
first element.  The same-type and inverse queries always answer false. -/
def nineRoundOracle : Oracle Nat where
  isNoOp := fun t _ => [0, 16, 30, 42, 52, 60, 66, 70, 72].contains t
  isSameType := fun _ _ _ => false
  isInverse := fun _ _ _ => false

/-- Like `nineRoundOracle` but tuned to an eight-element chain: exactly eight
change-making rounds occur and the ninth round removes nothing, so the
scheduler converges with its pass counter equal to the maximum. -/
def eightRoundOracle : Oracle Nat where
  isNoOp := fun t _ => [0, 14, 26, 36, 44, 50, 54, 56].contains t
  isSameType := fun _ _ _ => false
  isInverse := fun _ _ _ => false

/-- Projection of `pureOracle`: the identity query ignores the counter. -/
@[simp] theorem pureOracle_isNoOp (pn : α → Bool) (st inv : α → α → Bool) (t : Nat) (a : α) :
    (pureOracle pn st inv).isNoOp t a = pn a := rfl

/-- Projection of `pureOracle`: the same-type query ignores the counter. -/
@[simp] theorem pureOracle_isSameType (pn : α → Bool) (st inv : α → α → Bool) (t : Nat) (a b : α) :
    (pureOracle pn st inv).isSameType t a b = st a b := rfl

/-- Projection of `pureOracle`: the inverse query ignores the counter. -/
@[simp] theorem pureOracle_isInverse (pn : α → Bool) (st inv : α → α → Bool) (t : Nat) (a b : α) :
    (pureOracle pn st inv).isInverse t a b = inv a b := rfl

/-- With pure predicates, `RemoveNoOps` keeps exactly the elements failing the
identity query (in order), counts the ones passing it, and makes one query
per element. -/
theorem removeNoOps_pure (pn : α → Bool) (st inv : α → α → Bool) (t : Nat) (l : List α) :
    RemoveNoOps (pureOracle pn st inv) t l =
      (l.filter (fun a => !(pn a)), l.countP pn, t + l.length) := by
  induction l generalizing t with
  | nil => simp [RemoveNoOps]
  | cons a rest ih =>
    simp only [RemoveNoOps, pureOracle_isNoOp]
    cases h : pn a
    · rw [ih (t + 1)]
      simp [h, List.filter_cons, List.countP_cons]
      omega
    · rw [ih (t + 1)]
      simp [h, List.filter_cons, List.countP_cons]
      omega

/-- `RemoveNoOps` shortens the chain by exactly its returned count. -/
theorem removeNoOps_len (O : Oracle α) (t : Nat) (l : List α) :
    l.length = (RemoveNoOps O t l).1.length + (RemoveNoOps O t l).2.1 := by
  induction l generalizing t with
  | nil => simp [RemoveNoOps]
  | cons a rest ih =>
    simp only [RemoveNoOps]
    cases h : O.isNoOp t a <;> simp [h] <;> rw [ih (t + 1)] <;> omega

/-- The chain returned by `RemoveNoOps` is a subsequence of its input. -/
theorem removeNoOps_sublist (O : Oracle α) (t : Nat) (l : List α) :
    (RemoveNoOps O t l).1.Sublist l := by
  induction l generalizing t with
  | nil => simp [RemoveNoOps]
  | cons a rest ih =>
    simp only [RemoveNoOps]
    cases h : O.isNoOp t a <;> simp [h]
    · exact ih (t + 1)
    · exact (ih (t + 1)).cons a

/-- `RemoveNoOps` makes exactly one identity query per element of its input. -/
theorem removeNoOps_time (O : Oracle α) (t : Nat) (l : List α) :
    (RemoveNoOps O t l).2.2 = t + l.length := by
  induction l generalizing t with
  | nil => simp [RemoveNoOps]
  | cons a rest ih =>
    simp only [RemoveNoOps]
    cases h : O.isNoOp t a <;> simp [h, ih (t + 1)] <;> omega

/-- A zero count from `RemoveNoOps` means the chain came back unchanged. -/
theorem removeNoOps_count_zero (O : Oracle α) (t : Nat) (l : List α)
    (h : (RemoveNoOps O t l).2.1 = 0) : (RemoveNoOps O t l).1 = l := by
  induction l generalizing t with
  | nil => simp [RemoveNoOps]
  | cons a rest ih =>
    simp only [RemoveNoOps] at h ⊢
    cases hb : O.isNoOp t a <;> simp [hb] at h ⊢
    exact ih (t + 1) h

/-- Removing the adjacent pair at positions `n`, `n+1` shortens the chain by
exactly two. -/
theorem length_erasePair (l : List α) (n : Nat) (h : n + 1 < l.length) :
    (l.take n ++ l.drop (n + 2)).length = l.length - 2 := by
  simp only [List.length_append, List.length_take, List.length_drop]
  omega

/-- Removing an adjacent pair yields a subsequence of the chain. -/
theorem erasePair_sublist (l : List α) (n : Nat) :
    (l.take n ++ l.drop (n + 2)).Sublist l := by
  conv_rhs => rw [← List.take_append_drop n l]
  refine List.Sublist.append_left ?_ (l.take n)
  rw [show n + 2 = n + 2 by rfl, ← List.drop_drop]
  exact List.drop_sublist 2 (l.drop n)

/-- The cursor loop reaches its exit within any budget exceeding the measure,
for every oracle and every nonnegative starting cursor; in particular every
element access it performs is in bounds (an out-of-bounds access would
produce `none`). -/
theorem removeInverseGo_isSome (O : Oracle α) (fuel : Nat) :
    ∀ (t : Nat) (l : List α) (c : Int) (count : Nat),
      0 ≤ c → invMeasure l c < fuel →
      (removeInverseGo O fuel t l c count).isSome := by
  induction fuel with
  | zero =>
    intro t l c count hc hf
    simp [invMeasure] at hf
  | succ fuel ih =>
    intro t l c count hc hf
    simp only [invMeasure] at hf
    simp only [removeInverseGo]
    by_cases hcond : c < (l.length : Int) - 1
    · have hb1 : c.toNat < l.length := by omega
      have hb2 : c.toNat + 1 < l.length := by omega
      simp only [if_pos hcond, List.getElem?_eq_getElem hb1, List.getElem?_eq_getElem hb2]
      cases hst : O.isSameType t (l[c.toNat]) (l[c.toNat + 1])
      · simp only [hst, Bool.false_eq_true, if_false]
        exact ih (t + 1) l (c + 1) count (by omega) (by simp only [invMeasure]; omega)
      · simp only [hst, if_true]
        cases hinv : O.isInverse (t + 1) (l[c.toNat]) (l[c.toNat + 1])
        · simp only [hinv, Bool.false_eq_true, if_false]
          exact ih (t + 2) l (c + 1) count (by omega) (by simp only [invMeasure]; omega)
        · simp only [hinv, if_true]
          refine ih (t + 2) _ (max 0 (c - 1)) (count + 1) (le_max_left 0 (c - 1)) ?_
          simp only [invMeasure, length_erasePair l c.toNat hb2]
          omega
    · simp [if_neg hcond]

/-- The cursor loop shortens the chain by exactly two elements per counted
pair, for every oracle: the quantity `length + 2 * count` is preserved. -/
theorem removeInverseGo_len (O : Oracle α) (fuel t : Nat) (l : List α) (c : Int)
    (count : Nat) :
    ∀ r : List α × Nat × Nat, removeInverseGo O fuel t l c count = some r →
      l.length + 2 * count = r.1.length + 2 * r.2.1 := by
  induction fuel, t, l, c, count using removeInverseGo.induct O with
  | case1 t l c count hcond =>
    intro r h
    simp [removeInverseGo, if_pos hcond] at h
  | case2 t l c count hcond =>
    intro r h
    simp only [removeInverseGo, if_neg hcond, Option.some.injEq] at h
    subst h
    rfl
  | case3 fuel t l c count hcond first second hg2 hg1 hst hinv ih =>
    intro r h
    simp only [removeInverseGo, if_pos hcond, hg1, hg2, hst, hinv, if_true] at h
    have hrec := ih r h
    have hb2 : c.toNat + 1 < l.length := (List.getElem?_eq_some.mp hg2).1
    rw [length_erasePair l c.toNat hb2] at hrec
    omega
  | case4 fuel t l c count hcond first second hg2 hg1 hst hinv ih =>
    intro r h
    simp only [removeInverseGo, if_pos hcond, hg1, hg2, hst, hinv, if_true,
      Bool.false_eq_true, if_false] at h
    exact ih r h
  | case5 fuel t l c count hcond first second hg2 hg1 hst ih =>
    intro r h
    simp only [removeInverseGo, if_pos hcond, hg1, hg2, hst, Bool.false_eq_true,
      if_false] at h
    exact ih r h
  | case6 fuel t l c count hcond hfail =>
    intro r h
    simp only [removeInverseGo, if_pos hcond] at h
    cases hg1 : l[c.toNat]? with
    | none => exact Option.noConfusion h
    | some a =>
      cases hg2 : l[c.toNat + 1]? with
      | none => exact Option.noConfusion h
      | some b => exact (hfail a b hg1 hg2).elim
  | case7 fuel t l c count hcond =>
    intro r h
    simp only [removeInverseGo, if_neg hcond, Option.some.injEq] at h
    subst h
    rfl

/-- The chain returned by the cursor loop is a subsequence of its input, for
every oracle. -/
theorem removeInverseGo_sublist (O : Oracle α) (fuel t : Nat) (l : List α) (c : Int)
    (count : Nat) :
    ∀ r : List α × Nat × Nat, removeInverseGo O fuel t l c count = some r →
      r.1.Sublist l := by
  induction fuel, t, l, c, count using removeInverseGo.induct O with
  | case1 t l c count hcond =>
    intro r h
    simp [removeInverseGo, if_pos hcond] at h
  | case2 t l c count hcond =>
    intro r h
    simp only [removeInverseGo, if_neg hcond, Option.some.injEq] at h
    subst h
    exact List.Sublist.refl l
  | case3 fuel t l c count hcond first second hg2 hg1 hst hinv ih =>
    intro r h
    simp only [removeInverseGo, if_pos hcond, hg1, hg2, hst, hinv, if_true] at h
    exact (ih r h).trans (erasePair_sublist l c.toNat)
  | case4 fuel t l c count hcond first second hg2 hg1 hst hinv ih =>
    intro r h
    simp only [removeInverseGo, if_pos hcond, hg1, hg2, hst, hinv, if_true,
      Bool.false_eq_true, if_false] at h
    exact ih r h
  | case5 fuel t l c count hcond first second hg2 hg1 hst ih =>
    intro r h
    simp only [removeInverseGo, if_pos hcond, hg1, hg2, hst, Bool.false_eq_true,
      if_false] at h
    exact ih r h
  | case6 fuel t l c count hcond hfail =>
    intro r h
    simp only [removeInverseGo, if_pos hcond] at h
    cases hg1 : l[c.toNat]? with
    | none => exact Option.noConfusion h
    | some a =>
      cases hg2 : l[c.toNat + 1]? with
      | none => exact Option.noConfusion h
      | some b => exact (hfail a b hg1 hg2).elim
  | case7 fuel t l c count hcond =>
    intro r h
    simp only [removeInverseGo, if_neg hcond, Option.some.injEq] at h
    subst h
    exact List.Sublist.refl l

/-- The pair count returned by the cursor loop never falls below the count it
started from. -/
theorem removeInverseGo_count_mono (O : Oracle α) (fuel t : Nat) (l : List α)
    (c : Int) (count : Nat) :
    ∀ r : List α × Nat × Nat, removeInverseGo O fuel t l c count = some r →
      count ≤ r.2.1 := by
  induction fuel, t, l, c, count using removeInverseGo.induct O with
  | case1 t l c count hcond =>
    intro r h
    simp [removeInverseGo, if_pos hcond] at h
  | case2 t l c count hcond =>
    intro r h
    simp only [removeInverseGo, if_neg hcond, Option.some.injEq] at h
    subst h
    exact Nat.le_refl count
  | case3 fuel t l c count hcond first second hg2 hg1 hst hinv ih =>
    intro r h
    simp only [removeInverseGo, if_pos hcond, hg1, hg2, hst, hinv, if_true] at h
    exact Nat.le_of_succ_le (ih r h)
  | case4 fuel t l c count hcond first second hg2 hg1 hst hinv ih =>
    intro r h
    simp only [removeInverseGo, if_pos hcond, hg1, hg2, hst, hinv, if_true,
      Bool.false_eq_true, if_false] at h
    exact ih r h
  | case5 fuel t l c count hcond first second hg2 hg1 hst ih =>
    intro r h
    simp only [removeInverseGo, if_pos hcond, hg1, hg2, hst, Bool.false_eq_true,
      if_false] at h
    exact ih r h
  | case6 fuel t l c count hcond hfail =>
    intro r h
    simp only [removeInverseGo, if_pos hcond] at h
    cases hg1 : l[c.toNat]? with
    | none => exact Option.noConfusion h
    | some a =>
      cases hg2 : l[c.toNat + 1]? with
      | none => exact Option.noConfusion h
      | some b => exact (hfail a b hg1 hg2).elim
  | case7 fuel t l c count hcond =>
    intro r h
    simp only [removeInverseGo, if_neg hcond, Option.some.injEq] at h
    subst h
    exact Nat.le_refl count

/-- Enlarging the budget of a cursor-loop run that already completed does not
change its result. -/
theorem removeInverseGo_fuel_mono (O : Oracle α) (fuel t : Nat) (l : List α)
    (c : Int) (count : Nat) :
    ∀ (fuel2 : Nat) (r : List α × Nat × Nat), fuel ≤ fuel2 →
      removeInverseGo O fuel t l c count = some r →
      removeInverseGo O fuel2 t l c count = some r := by
  induction fuel, t, l, c, count using removeInverseGo.induct O with
  | case1 t l c count hcond =>
    intro fuel2 r _ h
    simp [removeInverseGo, if_pos hcond] at h
  | case2 t l c count hcond =>
    intro fuel2 r _ h
    simp only [removeInverseGo, if_neg hcond, Option.some.injEq] at h
    subst h
    cases fuel2 with
    | zero => simp [removeInverseGo, if_neg hcond]
    | succ f => simp [removeInverseGo, if_neg hcond]
  | case3 fuel t l c count hcond first second hg2 hg1 hst hinv ih =>
    intro fuel2 r hle h
    simp only [removeInverseGo, if_pos hcond, hg1, hg2, hst, hinv, if_true] at h
    cases fuel2 with
    | zero => omega
    | succ f =>
      simp only [removeInverseGo, if_pos hcond, hg1, hg2, hst, hinv, if_true]
      exact ih f r (Nat.le_of_succ_le_succ hle) h
  | case4 fuel t l c count hcond first second hg2 hg1 hst hinv ih =>
    intro fuel2 r hle h
    simp only [removeInverseGo, if_pos hcond, hg1, hg2, hst, hinv, if_true,
      Bool.false_eq_true, if_false] at h
    cases fuel2 with
    | zero => omega
    | succ f =>
      simp only [removeInverseGo, if_pos hcond, hg1, hg2, hst, hinv, if_true,
        Bool.false_eq_true, if_false]
      exact ih f r (Nat.le_of_succ_le_succ hle) h
  | case5 fuel t l c count hcond first second hg2 hg1 hst ih =>
    intro fuel2 r hle h
    simp only [removeInverseGo, if_pos hcond, hg1, hg2, hst, Bool.false_eq_true,
      if_false] at h
    cases fuel2 with
    | zero => omega
    | succ f =>
      simp only [removeInverseGo, if_pos hcond, hg1, hg2, hst, Bool.false_eq_true,
        if_false]
      exact ih f r (Nat.le_of_succ_le_succ hle) h
  | case6 fuel t l c count hcond hfail =>
    intro fuel2 r _ h
    simp only [removeInverseGo, if_pos hcond] at h
    cases hg1 : l[c.toNat]? with
    | none => exact Option.noConfusion h
    | some a =>
      cases hg2 : l[c.toNat + 1]? with
      | none => exact Option.noConfusion h
      | some b => exact (hfail a b hg1 hg2).elim
  | case7 fuel t l c count hcond =>
    intro fuel2 r _ h
    simp only [removeInverseGo, if_neg hcond, Option.some.injEq] at h
    subst h
    cases fuel2 with
    | zero => simp [removeInverseGo, if_neg hcond]
    | succ f => simp [removeInverseGo, if_neg hcond]

/-- With pure predicates, the cursor loop computes exactly the documented
cancellation scan (§4.2) whose removal condition is the source's directional
test `isSameType && isInverse` on the ordered pair, run over a Nat cursor. -/
theorem removeInverseGo_pure_scan (pn : α → Bool) (st inv : α → α → Bool)
    (fuel t : Nat) (l : List α) (c : Int) (count : Nat) :
    ∀ r : List α × Nat × Nat, 0 ≤ c →
      removeInverseGo (pureOracle pn st inv) fuel t l c count = some r →
      inversePairScanGo (fun a b => st a b && inv a b) fuel l c.toNat count =
        some (r.1, r.2.1) := by
  induction fuel, t, l, c, count using removeInverseGo.induct (pureOracle pn st inv) with
  | case1 t l c count hcond =>
    intro r _ h
    simp [removeInverseGo, if_pos hcond] at h
  | case2 t l c count hcond =>
    intro r hc h
    simp only [removeInverseGo, if_neg hcond, Option.some.injEq] at h
    subst h
    rw [inversePairScanGo]
    rw [dif_neg (by omega)]
  | case3 fuel t l c count hcond first second hg2 hg1 hst hinv ih =>
    intro r hc h
    simp only [removeInverseGo, if_pos hcond, hg1, hg2, hst, hinv, if_true] at h
    rw [pureOracle_isSameType] at hst
    rw [pureOracle_isInverse] at hinv
    have hb2 : c.toNat + 1 < l.length := (List.getElem?_eq_some.mp hg2).1
    have e1 : l[c.toNat] = first := (List.getElem?_eq_some.mp hg1).2
    have e2 : l[c.toNat + 1] = second := (List.getElem?_eq_some.mp hg2).2
    rw [inversePairScanGo]
    rw [dif_pos hb2]
    simp only [List.get_eq_getElem, e1, e2, hst, hinv, Bool.and_self, if_true]
    have hrec := ih r (le_max_left 0 (c - 1)) h
    have emax : (max 0 (c - 1)).toNat = c.toNat - 1 := by omega
    rw [emax] at hrec
    exact hrec
  | case4 fuel t l c count hcond first second hg2 hg1 hst hinv ih =>
    intro r hc h
    simp only [removeInverseGo, if_pos hcond, hg1, hg2, hst, hinv, if_true,
      Bool.false_eq_true, if_false] at h
    rw [pureOracle_isSameType] at hst
    rw [pureOracle_isInverse] at hinv
    have hb2 : c.toNat + 1 < l.length := (List.getElem?_eq_some.mp hg2).1
    have e1 : l[c.toNat] = first := (List.getElem?_eq_some.mp hg1).2
    have e2 : l[c.toNat + 1] = second := (List.getElem?_eq_some.mp hg2).2
    rw [inversePairScanGo]
    rw [dif_pos hb2]
    simp only [List.get_eq_getElem, e1, e2, hst, hinv, Bool.and_false,
      Bool.false_eq_true, if_false]
    have hrec := ih r (by omega) h
    have eadd : (c + 1).toNat = c.toNat + 1 := by omega
    rw [eadd] at hrec
    exact hrec
  | case5 fuel t l c count hcond first second hg2 hg1 hst ih =>
    intro r hc h
    simp only [removeInverseGo, if_pos hcond, hg1, hg2, hst, Bool.false_eq_true,
      if_false] at h
    rw [pureOracle_isSameType] at hst
    rw [Bool.not_eq_true] at hst
    have hb2 : c.toNat + 1 < l.length := (List.getElem?_eq_some.mp hg2).1
    have e1 : l[c.toNat] = first := (List.getElem?_eq_some.mp hg1).2
    have e2 : l[c.toNat + 1] = second := (List.getElem?_eq_some.mp hg2).2
    rw [inversePairScanGo]
    rw [dif_pos hb2]
    simp only [List.get_eq_getElem, e1, e2, hst, Bool.false_and,
      Bool.false_eq_true, if_false]
    have hrec := ih r (by omega) h
    have eadd : (c + 1).toNat = c.toNat + 1 := by omega
    rw [eadd] at hrec
    exact hrec
  | case6 fuel t l c count hcond hfail =>
    intro r _ h
    simp only [removeInverseGo, if_pos hcond] at h
    cases hg1 : l[c.toNat]? with
    | none => exact Option.noConfusion h
    | some a =>
      cases hg2 : l[c.toNat + 1]? with
      | none => exact Option.noConfusion h
      | some b => exact (hfail a b hg1 hg2).elim
  | case7 fuel t l c count hcond =>
    intro r hc h
    simp only [removeInverseGo, if_neg hcond, Option.some.injEq] at h
    subst h
    rw [inversePairScanGo]
    rw [dif_neg (by omega)]

/-- With pure predicates, a cursor-loop run that counts no pair leaves the
chain unchanged, and at exit no ordered adjacent pair at or beyond the
starting cursor satisfies the source's removal test. -/
theorem removeInverseGo_pure_count_eq (pn : α → Bool) (st inv : α → α → Bool)
    (fuel t : Nat) (l : List α) (c : Int) (count : Nat) :
    ∀ r : List α × Nat × Nat, 0 ≤ c →
      removeInverseGo (pureOracle pn st inv) fuel t l c count = some r →
      r.2.1 = count →
      r.1 = l ∧ ∀ i, c.toNat ≤ i → ∀ a b, l[i]? = some a → l[i + 1]? = some b →
        (st a b && inv a b) = false := by
  induction fuel, t, l, c, count using removeInverseGo.induct (pureOracle pn st inv) with
  | case1 t l c count hcond =>
    intro r _ h
    simp [removeInverseGo, if_pos hcond] at h
  | case2 t l c count hcond =>
    intro r hc h _
    simp only [removeInverseGo, if_neg hcond, Option.some.injEq] at h
    subst h
    refine ⟨rfl, ?_⟩
    intro i hi a b _ hb
    have hib : i + 1 < l.length := (List.getElem?_eq_some.mp hb).1
    omega
  | case3 fuel t l c count hcond first second hg2 hg1 hst hinv ih =>
    intro r hc h hcnt
    simp only [removeInverseGo, if_pos hcond, hg1, hg2, hst, hinv, if_true] at h
    have := removeInverseGo_count_mono _ _ _ _ _ _ r h
    omega
  | case4 fuel t l c count hcond first second hg2 hg1 hst hinv ih =>
    intro r hc h hcnt
    simp only [removeInverseGo, if_pos hcond, hg1, hg2, hst, hinv, if_true,
      Bool.false_eq_true, if_false] at h
    rw [pureOracle_isSameType] at hst
    rw [pureOracle_isInverse] at hinv
    obtain ⟨hl, hrest⟩ := ih r (by omega) h hcnt
    refine ⟨hl, ?_⟩
    intro i hi a b ha hb
    rcases Nat.eq_or_lt_of_le hi with hieq | hilt
    · rw [hieq] at hg1 hg2
      rw [hg1, Option.some.injEq] at ha
      rw [hg2, Option.some.injEq] at hb
      rw [Bool.not_eq_true] at hinv
      rw [← ha, ← hb, hst, hinv, Bool.and_false]
    · have : (c + 1).toNat ≤ i := by omega
      exact hrest i this a b ha hb
  | case5 fuel t l c count hcond first second hg2 hg1 hst ih =>
    intro r hc h hcnt
    simp only [removeInverseGo, if_pos hcond, hg1, hg2, hst, Bool.false_eq_true,
      if_false] at h
    rw [pureOracle_isSameType] at hst
    rw [Bool.not_eq_true] at hst
    obtain ⟨hl, hrest⟩ := ih r (by omega) h hcnt
    refine ⟨hl, ?_⟩
    intro i hi a b ha hb
    rcases Nat.eq_or_lt_of_le hi with hieq | hilt
    · rw [hieq] at hg1 hg2
      rw [hg1, Option.some.injEq] at ha
      rw [hg2, Option.some.injEq] at hb
      rw [← ha, ← hb, hst, Bool.false_and]
    · have : (c + 1).toNat ≤ i := by omega
      exact hrest i this a b ha hb
  | case6 fuel t l c count hcond hfail =>
    intro r _ h
    simp only [removeInverseGo, if_pos hcond] at h
    cases hg1 : l[c.toNat]? with
    | none => exact Option.noConfusion h
    | some a =>
      cases hg2 : l[c.toNat + 1]? with
      | none => exact Option.noConfusion h
      | some b => exact (hfail a b hg1 hg2).elim
  | case7 fuel t l c count hcond =>
    intro r hc h _
    simp only [removeInverseGo, if_neg hcond, Option.some.injEq] at h
    subst h
    refine ⟨rfl, ?_⟩
    intro i hi a b _ hb
    have hib : i + 1 < l.length := (List.getElem?_eq_some.mp hb).1
    omega

/-- With pure predicates, if no ordered adjacent pair of the chain satisfies
the source's removal test, the cursor loop only advances: given a sufficient
budget it exits with the chain and count unchanged. -/
theorem removeInverseGo_pure_noremove (pn : α → Bool) (st inv : α → α → Bool)
    (fuel t : Nat) (l : List α) (c : Int) (count : Nat) :
    0 ≤ c → invMeasure l c < fuel →
    (∀ i a b, l[i]? = some a → l[i + 1]? = some b → (st a b && inv a b) = false) →
    ∃ t2, removeInverseGo (pureOracle pn st inv) fuel t l c count =
      some (l, count, t2) := by
  induction fuel, t, l, c, count using removeInverseGo.induct (pureOracle pn st inv) with
  | case1 t l c count hcond =>
    intro hc hf _
    simp only [invMeasure] at hf
    omega
  | case2 t l c count hcond =>
    intro _ _ _
    exact ⟨t, by simp only [removeInverseGo, if_neg hcond]⟩
  | case3 fuel t l c count hcond first second hg2 hg1 hst hinv ih =>
    intro hc hf hall
    rw [pureOracle_isSameType] at hst
    rw [pureOracle_isInverse] at hinv
    have := hall c.toNat first second hg1 hg2
    rw [hst, hinv, Bool.and_self] at this
    exact Bool.noConfusion this
  | case4 fuel t l c count hcond first second hg2 hg1 hst hinv ih =>
    intro hc hf hall
    simp only [invMeasure] at hf
    obtain ⟨t2, hrec⟩ := ih (by omega) (by simp only [invMeasure]; omega) hall
    refine ⟨t2, ?_⟩
    simp only [removeInverseGo, if_pos hcond, hg1, hg2, hst, hinv, if_true,
      Bool.false_eq_true, if_false]
    exact hrec
  | case5 fuel t l c count hcond first second hg2 hg1 hst ih =>
    intro hc hf hall
    simp only [invMeasure] at hf
    obtain ⟨t2, hrec⟩ := ih (by omega) (by simp only [invMeasure]; omega) hall
    refine ⟨t2, ?_⟩
    simp only [removeInverseGo, if_pos hcond, hg1, hg2, hst, Bool.false_eq_true,
      if_false]
    exact hrec
  | case6 fuel t l c count hcond hfail =>
    intro hc _ _
    have hb1 : c.toNat < l.length := by omega
    have hb2 : c.toNat + 1 < l.length := by omega
    exact (hfail (l[c.toNat]) (l[c.toNat + 1]) (List.getElem?_eq_getElem hb1)
      (List.getElem?_eq_getElem hb2)).elim
  | case7 fuel t l c count hcond =>
    intro _ _ _
    exact ⟨t, by simp only [removeInverseGo, if_neg hcond]⟩

/-- The budget used by `RemoveInverseOps` suffices: the cursor loop returns
`some` of exactly the wrapper's value, for every oracle. -/
theorem removeInverseOps_spec (O : Oracle α) (t : Nat) (l : List α) :
    removeInverseGo O (3 * l.length + 3) t l 0 0 =
      some (RemoveInverseOps O t l) := by
  have h := removeInverseGo_isSome O (3 * l.length + 3) t l 0 0 (le_refl 0)
    (by simp only [invMeasure]; omega)
  rcases Option.isSome_iff_exists.mp h with ⟨r, hr⟩
  rw [RemoveInverseOps, hr]
  rfl

/-- `RemoveInverseOps` shortens the chain by exactly twice its returned pair
count, for every oracle. -/
theorem removeInverseOps_len (O : Oracle α) (t : Nat) (l : List α) :
    l.length = (RemoveInverseOps O t l).1.length +
      2 * (RemoveInverseOps O t l).2.1 := by
  have h := removeInverseGo_len O (3 * l.length + 3) t l 0 0
    (RemoveInverseOps O t l) (removeInverseOps_spec O t l)
  omega

/-- The chain returned by `RemoveInverseOps` is a subsequence of its input,
for every oracle. -/
theorem removeInverseOps_sublist (O : Oracle α) (t : Nat) (l : List α) :
    (RemoveInverseOps O t l).1.Sublist l :=
  removeInverseGo_sublist O (3 * l.length + 3) t l 0 0
    (RemoveInverseOps O t l) (removeInverseOps_spec O t l)

/-- With pure predicates, a `RemoveInverseOps` call that counts zero pairs
leaves the chain unchanged and certifies that no ordered adjacent pair of the
chain satisfies the source's removal test. -/
theorem removeInverseOps_pure_count_zero (pn : α → Bool) (st inv : α → α → Bool)
    (t : Nat) (l : List α)
    (h : (RemoveInverseOps (pureOracle pn st inv) t l).2.1 = 0) :
    (RemoveInverseOps (pureOracle pn st inv) t l).1 = l ∧
      ∀ i a b, l[i]? = some a → l[i + 1]? = some b →
        (st a b && inv a b) = false := by
  have hspec := removeInverseOps_spec (pureOracle pn st inv) t l
  obtain ⟨hl, hrest⟩ := removeInverseGo_pure_count_eq pn st inv
    (3 * l.length + 3) t l 0 0 (RemoveInverseOps (pureOracle pn st inv) t l)
    (le_refl 0) hspec h
  exact ⟨hl, fun i a b ha hb => hrest i (Nat.zero_le i) a b ha hb⟩

/-- With pure predicates and no removable adjacent pair, `RemoveInverseOps`
returns the chain unchanged with count zero. -/
theorem removeInverseOps_pure_noremove (pn : α → Bool) (st inv : α → α → Bool)
    (t : Nat) (l : List α)
    (hall : ∀ i a b, l[i]? = some a → l[i + 1]? = some b →
      (st a b && inv a b) = false) :
    (RemoveInverseOps (pureOracle pn st inv) t l).1 = l ∧
      (RemoveInverseOps (pureOracle pn st inv) t l).2.1 = 0 := by
  obtain ⟨t2, h⟩ := removeInverseGo_pure_noremove pn st inv (3 * l.length + 3)
    t l 0 0 (le_refl 0) (by simp only [invMeasure]; omega) hall
  rw [RemoveInverseOps, h]
  exact ⟨rfl, rfl⟩

/-- The scheduler loop completes within any budget of at least
`MAX_OPTIMIZATION_PASSES + 2 - passes` rounds, for every oracle. -/
theorem optimizeLoop_isSome (O : Oracle α) (fuel t : Nat) (l : List α)
    (passes tn ti : Nat) :
    MAX_OPTIMIZATION_PASSES + 2 ≤ passes + fuel →
    (optimizeLoop O fuel t l passes tn ti).isSome := by
  induction fuel, t, l, passes, tn, ti using optimizeLoop.induct O with
  | case1 t l passes tn ti hp =>
    intro hle
    simp only [MAX_OPTIMIZATION_PASSES] at hp hle
    omega
  | case2 t l passes tn ti hp =>
    intro _
    simp [optimizeLoop, if_neg hp]
  | case3 fuel t l passes tn ti hp r hbreak =>
    intro _
    have hbreakR : ((runRound O t l).2.1 == 0 && (runRound O t l).2.2.1 == 0) = true :=
      hbreak
    simp only [optimizeLoop, if_pos hp, if_pos hbreakR, Option.isSome_some]
  | case4 fuel t l passes tn ti hp r hbreak ih =>
    intro hle
    have hbreakR : ¬((runRound O t l).2.1 == 0 && (runRound O t l).2.2.1 == 0) = true :=
      hbreak
    simp only [optimizeLoop, if_pos hp, if_neg hbreakR]
    exact ih (by omega)
  | case5 fuel t l passes tn ti hp =>
    intro _
    simp [optimizeLoop, if_neg hp]

/-- Enlarging the budget of a scheduler-loop run that already completed does
not change its result. -/
theorem optimizeLoop_fuel_mono (O : Oracle α) (fuel t : Nat) (l : List α)
    (passes tn ti : Nat) :
    ∀ (fuel2 : Nat) (r : List α × Nat × Nat × Nat × Nat), fuel ≤ fuel2 →
      optimizeLoop O fuel t l passes tn ti = some r →
      optimizeLoop O fuel2 t l passes tn ti = some r := by
  induction fuel, t, l, passes, tn, ti using optimizeLoop.induct O with
  | case1 t l passes tn ti hp =>
    intro fuel2 r _ h
    simp [optimizeLoop, if_pos hp] at h
  | case2 t l passes tn ti hp =>
    intro fuel2 r _ h
    simp only [optimizeLoop, if_neg hp] at h
    cases fuel2 with
    | zero => simpa [optimizeLoop, if_neg hp] using h
    | succ f => simpa [optimizeLoop, if_neg hp] using h
  | case3 fuel t l passes tn ti hp rr hbreak =>
    intro fuel2 r hle h
    have hbreakR : ((runRound O t l).2.1 == 0 && (runRound O t l).2.2.1 == 0) = true :=
      hbreak
    simp only [optimizeLoop, if_pos hp, if_pos hbreakR] at h
    cases fuel2 with
    | zero => omega
    | succ f =>
      simp only [optimizeLoop, if_pos hp, if_pos hbreakR]
      exact h
  | case4 fuel t l passes tn ti hp rr hbreak ih =>
    intro fuel2 r hle h
    have hbreakR : ¬((runRound O t l).2.1 == 0 && (runRound O t l).2.2.1 == 0) = true :=
      hbreak
    simp only [optimizeLoop, if_pos hp, if_neg hbreakR] at h
    cases fuel2 with
    | zero => omega
    | succ f =>
      simp only [optimizeLoop, if_pos hp, if_neg hbreakR]
      exact ih f r (Nat.le_of_succ_le_succ hle) h
  | case5 fuel t l passes tn ti hp =>
    intro fuel2 r _ h
    simp only [optimizeLoop, if_neg hp] at h
    cases fuel2 with
    | zero => simpa [optimizeLoop, if_neg hp] using h
    | succ f => simpa [optimizeLoop, if_neg hp] using h

/-- A completed scheduler loop never pushes the pass counter past
`MAX_OPTIMIZATION_PASSES + 1`, for every oracle. -/
theorem optimizeLoop_passes_le (O : Oracle α) (fuel t : Nat) (l : List α)
    (passes tn ti : Nat) :
    ∀ r : List α × Nat × Nat × Nat × Nat,
      passes ≤ MAX_OPTIMIZATION_PASSES + 1 →
      optimizeLoop O fuel t l passes tn ti = some r →
      r.2.1 ≤ MAX_OPTIMIZATION_PASSES + 1 := by
  induction fuel, t, l, passes, tn, ti using optimizeLoop.induct O with
  | case1 t l passes tn ti hp =>
    intro r _ h
    simp [optimizeLoop, if_pos hp] at h
  | case2 t l passes tn ti hp =>
    intro r hple h
    simp only [optimizeLoop, if_neg hp, Option.some.injEq] at h
    subst h
    exact hple
  | case3 fuel t l passes tn ti hp rr hbreak =>
    intro r hple h
    have hbreakR : ((runRound O t l).2.1 == 0 && (runRound O t l).2.2.1 == 0) = true :=
      hbreak
    simp only [optimizeLoop, if_pos hp, if_pos hbreakR, Option.some.injEq] at h
    subst h
    exact hple
  | case4 fuel t l passes tn ti hp rr hbreak ih =>
    intro r hple h
    have hbreakR : ¬((runRound O t l).2.1 == 0 && (runRound O t l).2.2.1 == 0) = true :=
      hbreak
    simp only [optimizeLoop, if_pos hp, if_neg hbreakR] at h
    exact ih r (by omega) h
  | case5 fuel t l passes tn ti hp =>
    intro r hple h
    simp only [optimizeLoop, if_neg hp, Option.some.injEq] at h
    subst h
    exact hple

/-- One scheduler round shortens the chain by exactly the number of no-ops it
removed plus twice the number of inverse pairs it removed. -/
theorem runRound_len (O : Oracle α) (t : Nat) (l : List α) :
    l.length = (runRound O t l).1.length + (runRound O t l).2.1 +
      2 * (runRound O t l).2.2.1 := by
  have h1 := removeNoOps_len O t l
  have h2 := removeInverseOps_len O (RemoveNoOps O t l).2.2 (RemoveNoOps O t l).1
  simp only [runRound]
  omega

/-- The chain after one scheduler round is a subsequence of the chain before
it. -/
theorem runRound_sublist (O : Oracle α) (t : Nat) (l : List α) :
    (runRound O t l).1.Sublist l := by
  simp only [runRound]
  exact (removeInverseOps_sublist O (RemoveNoOps O t l).2.2
    (RemoveNoOps O t l).1).trans (removeNoOps_sublist O t l)

/-- Across a completed scheduler loop, the chain length plus the accumulated
totals (no-ops once, inverse pairs twice) is invariant, for every oracle. -/
theorem optimizeLoop_len (O : Oracle α) (fuel t : Nat) (l : List α)
    (passes tn ti : Nat) :
    ∀ r : List α × Nat × Nat × Nat × Nat,
      optimizeLoop O fuel t l passes tn ti = some r →
      l.length + tn + 2 * ti = r.1.length + r.2.2.1 + 2 * r.2.2.2.1 := by
  induction fuel, t, l, passes, tn, ti using optimizeLoop.induct O with
  | case1 t l passes tn ti hp =>
    intro r h
    simp [optimizeLoop, if_pos hp] at h
  | case2 t l passes tn ti hp =>
    intro r h
    simp only [optimizeLoop, if_neg hp, Option.some.injEq] at h
    subst h
    rfl
  | case3 fuel t l passes tn ti hp rr hbreak =>
    intro r h
    have hbreakR : ((runRound O t l).2.1 == 0 && (runRound O t l).2.2.1 == 0) = true :=
      hbreak
    have hz : (runRound O t l).2.1 = 0 ∧ (runRound O t l).2.2.1 = 0 := by
      simpa using hbreakR
    simp only [optimizeLoop, if_pos hp, if_pos hbreakR, Option.some.injEq] at h
    subst h
    have := runRound_len O t l
    simp only
    omega
  | case4 fuel t l passes tn ti hp rr hbreak ih =>
    intro r h
    have hbreakR : ¬((runRound O t l).2.1 == 0 && (runRound O t l).2.2.1 == 0) = true :=
      hbreak
    simp only [optimizeLoop, if_pos hp, if_neg hbreakR] at h
    have hrec : (runRound O t l).1.length + (tn + (runRound O t l).2.1) +
        2 * (ti + (runRound O t l).2.2.1) =
        r.1.length + r.2.2.1 + 2 * r.2.2.2.1 := ih r h
    have := runRound_len O t l
    omega
  | case5 fuel t l passes tn ti hp =>
    intro r h
    simp only [optimizeLoop, if_neg hp, Option.some.injEq] at h
    subst h
    rfl

/-- The chain returned by a completed scheduler loop is a subsequence of the
chain it started from, for every oracle. -/
theorem optimizeLoop_sublist (O : Oracle α) (fuel t : Nat) (l : List α)
    (passes tn ti : Nat) :
    ∀ r : List α × Nat × Nat × Nat × Nat,
      optimizeLoop O fuel t l passes tn ti = some r →
      r.1.Sublist l := by
  induction fuel, t, l, passes, tn, ti using optimizeLoop.induct O with
  | case1 t l passes tn ti hp =>
    intro r h
    simp [optimizeLoop, if_pos hp] at h
  | case2 t l passes tn ti hp =>
    intro r h
    simp only [optimizeLoop, if_neg hp, Option.some.injEq] at h
    subst h
    exact List.Sublist.refl l
  | case3 fuel t l passes tn ti hp rr hbreak =>
    intro r h
    have hbreakR : ((runRound O t l).2.1 == 0 && (runRound O t l).2.2.1 == 0) = true :=
      hbreak
    simp only [optimizeLoop, if_pos hp, if_pos hbreakR, Option.some.injEq] at h
    subst h
    exact runRound_sublist O t l
  | case4 fuel t l passes tn ti hp rr hbreak ih =>
    intro r h
    have hbreakR : ¬((runRound O t l).2.1 == 0 && (runRound O t l).2.2.1 == 0) = true :=
      hbreak
    simp only [optimizeLoop, if_pos hp, if_neg hbreakR] at h
    exact (ih r h).trans (runRound_sublist O t l)
  | case5 fuel t l passes tn ti hp =>
    intro r h
    simp only [optimizeLoop, if_neg hp, Option.some.injEq] at h
    subst h
    exact List.Sublist.refl l

/-- When the pass counter is still within the bound and the upcoming round
removes nothing, the scheduler loop stops at once: it returns that round's
chain and counter value, leaving the pass counter and both totals untouched. -/
theorem optimizeLoop_break (O : Oracle α) (fuel t : Nat) (l : List α)
    (passes tn ti : Nat) (hp : passes ≤ MAX_OPTIMIZATION_PASSES)
    (hn : (runRound O t l).2.1 = 0) (hi : (runRound O t l).2.2.1 = 0) :
    optimizeLoop O (fuel + 1) t l passes tn ti =
      some ((runRound O t l).1, passes, tn, ti, (runRound O t l).2.2.2) := by
  have hbreakR : ((runRound O t l).2.1 == 0 && (runRound O t l).2.2.1 == 0) = true := by
    simp [hn, hi]
  simp only [optimizeLoop, if_pos hp, if_pos hbreakR]

/-- With pure predicates, a scheduler loop that completes without pushing the
pass counter past the bound must have ended on a zero-removal round, so its
final chain contains no no-op and no adjacent pair satisfying the removal
test. -/
theorem optimizeLoop_pure_converged (pn : α → Bool) (st inv : α → α → Bool)
    (fuel t : Nat) (l : List α) (passes tn ti : Nat) :
    ∀ r : List α × Nat × Nat × Nat × Nat,
      optimizeLoop (pureOracle pn st inv) fuel t l passes tn ti = some r →
      r.2.1 ≤ MAX_OPTIMIZATION_PASSES →
      r.1.countP pn = 0 ∧ ∀ i a b, r.1[i]? = some a → r.1[i + 1]? = some b →
        (st a b && inv a b) = false := by
  induction fuel, t, l, passes, tn, ti using optimizeLoop.induct (pureOracle pn st inv) with
  | case1 t l passes tn ti hp =>
    intro r h
    simp [optimizeLoop, if_pos hp] at h
  | case2 t l passes tn ti hp =>
    intro r h hple
    simp only [optimizeLoop, if_neg hp, Option.some.injEq] at h
    subst h
    simp only at hple
    omega
  | case3 fuel t l passes tn ti hp rr hbreak =>
    intro r h hple
    have hbreakR : ((runRound (pureOracle pn st inv) t l).2.1 == 0 &&
        (runRound (pureOracle pn st inv) t l).2.2.1 == 0) = true := hbreak
    have hz : (runRound (pureOracle pn st inv) t l).2.1 = 0 ∧
        (runRound (pureOracle pn st inv) t l).2.2.1 = 0 := by simpa using hbreakR
    simp only [optimizeLoop, if_pos hp, if_pos hbreakR, Option.some.injEq] at h
    subst h
    have h1 := removeNoOps_pure pn st inv t l
    have hzn : l.countP pn = 0 := by
      have e : (runRound (pureOracle pn st inv) t l).2.1 =
          (RemoveNoOps (pureOracle pn st inv) t l).2.1 := rfl
      have := hz.1
      rw [e, h1] at this
      exact this
    have hfilter : (RemoveNoOps (pureOracle pn st inv) t l).1 = l := by
      rw [h1]
      refine List.filter_eq_self.mpr (fun a ha => ?_)
      have hfa := List.countP_eq_zero.mp hzn a ha
      simp only [Bool.not_eq_true] at hfa
      simp [hfa]
    have hz2 : (RemoveInverseOps (pureOracle pn st inv)
        ((RemoveNoOps (pureOracle pn st inv) t l).2.2)
        ((RemoveNoOps (pureOracle pn st inv) t l).1)).2.1 = 0 := hz.2
    rw [hfilter] at hz2
    obtain ⟨hchain, hpairs⟩ := removeInverseOps_pure_count_zero pn st inv
      ((RemoveNoOps (pureOracle pn st inv) t l).2.2) l hz2
    have hruneq : (runRound (pureOracle pn st inv) t l).1 = l := by
      show (RemoveInverseOps (pureOracle pn st inv)
        ((RemoveNoOps (pureOracle pn st inv) t l).2.2)
        ((RemoveNoOps (pureOracle pn st inv) t l).1)).1 = l
      rw [hfilter]
      exact hchain
    refine ⟨?_, ?_⟩
    · show ((runRound (pureOracle pn st inv) t l).1).countP pn = 0
      rw [hruneq]
      exact hzn
    · show ∀ i a b, ((runRound (pureOracle pn st inv) t l).1)[i]? = some a →
        ((runRound (pureOracle pn st inv) t l).1)[i + 1]? = some b →
        (st a b && inv a b) = false
      rw [hruneq]
      exact hpairs
  | case4 fuel t l passes tn ti hp rr hbreak ih =>
    intro r h hple
    have hbreakR : ¬((runRound (pureOracle pn st inv) t l).2.1 == 0 &&
        (runRound (pureOracle pn st inv) t l).2.2.1 == 0) = true := hbreak
    simp only [optimizeLoop, if_pos hp, if_neg hbreakR] at h
    exact ih r h hple
  | case5 fuel t l passes tn ti hp =>
    intro r h hple
    simp only [optimizeLoop, if_neg hp, Option.some.injEq] at h
    subst h
    simp only at hple
    omega

/-- Soundness of the decidable adjacent-pair check: if it returns true, no
ordered adjacent pair of the chain satisfies the condition. -/
theorem noAdjPairB_spec (cond : α → α → Bool) (l : List α)
    (h : noAdjPairB cond l = true) :
    ∀ i a b, l[i]? = some a → l[i + 1]? = some b → cond a b = false := by
  induction l with
  | nil =>
    intro i a b ha _
    simp at ha
  | cons x rest ih =>
    intro i a b ha hb
    cases rest with
    | nil =>
      have : ([x] : List α)[i + 1]? = none := List.getElem?_eq_none (by simp)
      rw [this] at hb
      exact Option.noConfusion hb
    | cons y rest2 =>
      simp only [noAdjPairB, Bool.and_eq_true, Bool.not_eq_true'] at h
      cases i with
      | zero =>
        rw [List.getElem?_cons_zero, Option.some.injEq] at ha
        rw [List.getElem?_cons_succ, List.getElem?_cons_zero, Option.some.injEq] at hb
        rw [← ha, ← hb]
        exact h.1
      | succ j =>
        rw [List.getElem?_cons_succ] at ha hb
        exact ih h.2 j a b ha hb

/-- Given a nonnegative starting cursor and a budget exceeding the measure,
the replayed cursor loop confirms that the cursor stays nonnegative and every
element access is within bounds, for every oracle. -/
theorem invTraceOk_true (O : Oracle α) (fuel : Nat) :
    ∀ (t : Nat) (l : List α) (c : Int), 0 ≤ c → invMeasure l c < fuel →
      invTraceOk O fuel t l c = true := by
  induction fuel with
  | zero =>
    intro t l c hc hf
    simp only [invMeasure] at hf
    omega
  | succ fuel ih =>
    intro t l c hc hf
    simp only [invMeasure] at hf
    rw [invTraceOk.eq_def]
    simp only [decide_eq_true_eq, Bool.and_eq_true]
    refine ⟨by exact_mod_cast hc, ?_⟩
    by_cases hcond : c < (l.length : Int) - 1
    · have hb1 : c.toNat < l.length := by omega
      have hb2 : c.toNat + 1 < l.length := by omega
      simp only [if_pos hcond, List.getElem?_eq_getElem hb1,
        List.getElem?_eq_getElem hb2]
      simp only [decide_eq_true_eq, Bool.and_eq_true]
      refine ⟨hb2, ?_⟩
      cases hst : O.isSameType t (l[c.toNat]) (l[c.toNat + 1])
      · simp only [hst, Bool.false_eq_true, if_false]
        exact ih (t + 1) l (c + 1) (by omega) (by simp only [invMeasure]; omega)
      · simp only [hst, if_true]
        cases hinv : O.isInverse (t + 1) (l[c.toNat]) (l[c.toNat + 1])
        · simp only [hinv, Bool.false_eq_true, if_false]
          exact ih (t + 2) l (c + 1) (by omega) (by simp only [invMeasure]; omega)
        · simp only [hinv, if_true]
          refine ih (t + 2) _ (max 0 (c - 1)) (le_max_left 0 (c - 1)) ?_
          simp only [invMeasure, length_erasePair l c.toNat hb2]
          omega
    · simp [if_neg hcond]

/-- The budget used by `OptimizeOpVec` suffices for its scheduler loop. -/
theorem optimizeLoop_spec (O : Oracle α) (l : List α) :
    optimizeLoop O (MAX_OPTIMIZATION_PASSES + 2) 0 l 0 0 0 =
      some ((optimizeLoop O (MAX_OPTIMIZATION_PASSES + 2) 0 l 0 0 0).getD
        (l, 0, 0, 0, 0)) := by
  have h := optimizeLoop_isSome O (MAX_OPTIMIZATION_PASSES + 2) 0 l 0 0 0 (by omega)
  rcases Option.isSome_iff_exists.mp h with ⟨r, hr⟩
  rw [hr]
  rfl

/-- Unfolding of `OptimizeOpVec` on a nonempty chain in terms of its
scheduler-loop result. -/
theorem optimizeOpVec_fields (debug : Bool) (O : Oracle α) (ops : List α)
    (h : ops.isEmpty = false) (r : List α × Nat × Nat × Nat × Nat)
    (hr : optimizeLoop O (MAX_OPTIMIZATION_PASSES + 2) 0 ops 0 0 0 = some r) :
    OptimizeOpVec debug O ops =
      { ops := r.1, passes := r.2.1, totalNoops := r.2.2.1,
        totalInverseOps := r.2.2.2.1,
        log := (if debug then [LogEvent.preOptimize] else []) ++
          (if r.2.1 == MAX_OPTIMIZATION_PASSES then
            [LogEvent.maxPassesReached r.2.1] else []) ++
          (if debug then
            [LogEvent.summary ops.length r.1.length r.2.1 r.2.2.1 r.2.2.2.1]
          else []) } := by
  rw [OptimizeOpVec, if_neg (by simp [h]), hr]
  rfl

/-- C4: for the empty chain, `OptimizeOpVec` returns immediately: the chain is
unchanged, no pass executes (pass counter and both totals are zero), and no
diagnostic message is emitted, even when debug logging is enabled (the call is
made with `debug = true` as well as `false` since the statement quantifies
over the flag). -/
theorem C4_empty_chain (α : Type) (debug : Bool) (O : Oracle α) :
    OptimizeOpVec debug O ([] : List α) =
      { ops := [], passes := 0, totalNoops := 0, totalInverseOps := 0,
        log := [] } := rfl

/-- C5: for every chain and pure predicates, `RemoveNoOps` returns exactly the
input filtered by the negation of the identity query — preserving the relative
order of the survivors, since filtering preserves order — together with the
number of removed operations (the count of elements whose identity query is
true), while advancing the query counter once per element. -/
theorem C5_remove_noops_filter (α : Type) (pn : α → Bool) (st inv : α → α → Bool)
    (t : Nat) (l : List α) :
    RemoveNoOps (pureOracle pn st inv) t l =
      (l.filter (fun a => !(pn a)), l.countP pn, t + l.length) :=
  removeNoOps_pure pn st inv t l

/-- C10: every `RemoveNoOps` call shortens the chain by exactly its returned
count, every `RemoveInverseOps` call shortens it by exactly twice its returned
count, and consequently after `OptimizeOpVec` the original length equals the
final length plus the total no-ops removed plus twice the total inverse pairs
removed — for every oracle, including stateful ones. -/
theorem C10_length_accounting :
    (∀ (α : Type) (O : Oracle α) (t : Nat) (l : List α),
      l.length = (RemoveNoOps O t l).1.length + (RemoveNoOps O t l).2.1) ∧
    (∀ (α : Type) (O : Oracle α) (t : Nat) (l : List α),
      l.length = (RemoveInverseOps O t l).1.length +
        2 * (RemoveInverseOps O t l).2.1) ∧
    (∀ (α : Type) (debug : Bool) (O : Oracle α) (l : List α),
      l.length = (OptimizeOpVec debug O l).ops.length +
        (OptimizeOpVec debug O l).totalNoops +
        2 * (OptimizeOpVec debug O l).totalInverseOps) := by
  refine ⟨fun α O t l => removeNoOps_len O t l,
    fun α O t l => removeInverseOps_len O t l, ?_⟩
  intro α debug O l
  by_cases he : l.isEmpty
  · have hl : l = [] := by
      cases l with
      | nil => rfl
      | cons a rest => simp [List.isEmpty] at he
    subst hl
    rfl
  · have he2 : l.isEmpty = false := by simpa using he
    have hr := optimizeLoop_spec O l
    rw [optimizeOpVec_fields debug O l he2 _ hr]
    have hlen := optimizeLoop_len O (MAX_OPTIMIZATION_PASSES + 2) 0 l 0 0 0 _ hr
    simp only at hlen ⊢
    omega

/-- C3: both loops of the optimizer terminate for every finite chain and every
behavior of the operation predicates, stateful or inconsistent ones included:
the cursor loop of `RemoveInverseOps` completes within the explicit budget
`3 * length + 3` (a larger budget changes nothing), and the scheduler loop of
`OptimizeOpVec` completes within the explicit budget
`MAX_OPTIMIZATION_PASSES + 2` rounds (a larger budget changes nothing). -/
theorem C3_termination :
    (∀ (α : Type) (O : Oracle α) (t : Nat) (l : List α),
      removeInverseGo O (3 * l.length + 3) t l 0 0 =
        some (RemoveInverseOps O t l)) ∧
    (∀ (α : Type) (O : Oracle α) (extra t : Nat) (l : List α),
      removeInverseGo O (3 * l.length + 3 + extra) t l 0 0 =
        removeInverseGo O (3 * l.length + 3) t l 0 0) ∧
    (∀ (α : Type) (O : Oracle α) (l : List α),
      (optimizeLoop O (MAX_OPTIMIZATION_PASSES + 2) 0 l 0 0 0).isSome = true) ∧
    (∀ (α : Type) (O : Oracle α) (extra : Nat) (l : List α),
      optimizeLoop O (MAX_OPTIMIZATION_PASSES + 2 + extra) 0 l 0 0 0 =
        optimizeLoop O (MAX_OPTIMIZATION_PASSES + 2) 0 l 0 0 0) := by
  refine ⟨fun α O t l => removeInverseOps_spec O t l, ?_, ?_, ?_⟩
  · intro α O extra t l
    rw [removeInverseOps_spec O t l]
    exact removeInverseGo_fuel_mono O (3 * l.length + 3) t l 0 0
      (3 * l.length + 3 + extra) _ (by omega) (removeInverseOps_spec O t l)
  · intro α O l
    exact optimizeLoop_isSome O (MAX_OPTIMIZATION_PASSES + 2) 0 l 0 0 0 (by omega)
  · intro α O extra l
    rw [optimizeLoop_spec O l]
    exact optimizeLoop_fuel_mono O (MAX_OPTIMIZATION_PASSES + 2) 0 l 0 0 0
      (MAX_OPTIMIZATION_PASSES + 2 + extra) _ (by omega) (optimizeLoop_spec O l)

/-- C7: on the empty and the single-element chain `RemoveInverseOps` performs
zero same-type or inverse comparisons (the query counter comes back unchanged)
and returns count zero with the chain untouched; and for every chain and every
oracle the replayed cursor loop confirms that the cursor is nonnegative at
every loop entry and that both element accesses of every executed iteration
are within bounds — the signed comparison `cursor < length - 1` is exact, so
the empty chain (length 0) makes the loop condition `0 < -1` false instead of
wrapping around. -/
theorem C7_cursor_safety :
    (∀ (α : Type) (O : Oracle α) (t : Nat),
      RemoveInverseOps O t ([] : List α) = ([], 0, t)) ∧
    (∀ (α : Type) (O : Oracle α) (t : Nat) (a : α),
      RemoveInverseOps O t [a] = ([a], 0, t)) ∧
    (∀ (α : Type) (O : Oracle α) (t : Nat) (l : List α),
      invTraceOk O (3 * l.length + 3) t l 0 = true) := by
  refine ⟨fun α O t => rfl, fun α O t a => rfl, ?_⟩
  intro α O t l
  exact invTraceOk_true O (3 * l.length + 3) t l 0 (le_refl 0)
    (by simp only [invMeasure]; omega)

/-- With pure predicates, a chain containing no no-op and no adjacent pair
satisfying the removal test is a fixed point of `OptimizeOpVec`: the chain
comes back unchanged with pass counter and both totals zero. -/
theorem optimizeOpVec_pure_noremove (debug : Bool) (pn : α → Bool)
    (st inv : α → α → Bool) (l : List α)
    (hpn : ∀ a ∈ l, pn a = false)
    (hall : ∀ i a b, l[i]? = some a → l[i + 1]? = some b →
      (st a b && inv a b) = false) :
    (OptimizeOpVec debug (pureOracle pn st inv) l).ops = l ∧
    (OptimizeOpVec debug (pureOracle pn st inv) l).passes = 0 ∧
    (OptimizeOpVec debug (pureOracle pn st inv) l).totalNoops = 0 ∧
    (OptimizeOpVec debug (pureOracle pn st inv) l).totalInverseOps = 0 := by
  by_cases he : l.isEmpty
  · have hl : l = [] := by
      cases l with
      | nil => rfl
      | cons a rest => simp [List.isEmpty] at he
    subst hl
    exact ⟨rfl, rfl, rfl, rfl⟩
  · have he2 : l.isEmpty = false := by simpa using he
    have hcnt : l.countP pn = 0 :=
      List.countP_eq_zero.mpr (fun a ha => by rw [hpn a ha]; simp)
    have hfilter : l.filter (fun a => !(pn a)) = l :=
      List.filter_eq_self.mpr (fun a ha => by rw [hpn a ha]; rfl)
    have e1 : RemoveNoOps (pureOracle pn st inv) 0 l = (l, 0, l.length) := by
      rw [removeNoOps_pure, hfilter, hcnt, Nat.zero_add]
    have e2 := removeInverseOps_pure_noremove pn st inv l.length l hall
    have hrr1 : (runRound (pureOracle pn st inv) 0 l).1 = l := by
      simp only [runRound, e1]
      exact e2.1
    have hrrn : (runRound (pureOracle pn st inv) 0 l).2.1 = 0 := by
      simp only [runRound, e1]
    have hrri : (runRound (pureOracle pn st inv) 0 l).2.2.1 = 0 := by
      simp only [runRound, e1]
      exact e2.2
    have hloop := optimizeLoop_break (pureOracle pn st inv)
      (MAX_OPTIMIZATION_PASSES + 1) 0 l 0 0 0 (Nat.zero_le _) hrrn hrri
    have hfuel : MAX_OPTIMIZATION_PASSES + 1 + 1 = MAX_OPTIMIZATION_PASSES + 2 := rfl
    rw [hfuel] at hloop
    rw [optimizeOpVec_fields debug (pureOracle pn st inv) l he2 _ hloop]
    simp only
    refine ⟨hrr1, ?_, ?_, ?_⟩ <;> trivial

/-- C8: for every chain and every oracle (stateful ones included) the chain
after `OptimizeOpVec` is a subsequence of the original — the optimizer only
deletes entries, never reorders, duplicates, or replaces them — so the final
length is at most the original; and with pure predicates, a chain with no
eliminable operation (no element whose identity query is true and no ordered
adjacent pair passing the same-type-and-inverse test) is returned with
contents and order identical to the input. -/
theorem C8_subsequence :
    (∀ (α : Type) (debug : Bool) (O : Oracle α) (l : List α),
      (OptimizeOpVec debug O l).ops.Sublist l) ∧
    (∀ (α : Type) (debug : Bool) (O : Oracle α) (l : List α),
      (OptimizeOpVec debug O l).ops.length ≤ l.length) ∧
    (∀ (α : Type) (debug : Bool) (pn : α → Bool) (st inv : α → α → Bool)
      (l : List α),
      (∀ a ∈ l, pn a = false) →
      noAdjPairB (fun a b => st a b && inv a b) l = true →
      (OptimizeOpVec debug (pureOracle pn st inv) l).ops = l) := by
  have hsub : ∀ (α : Type) (debug : Bool) (O : Oracle α) (l : List α),
      (OptimizeOpVec debug O l).ops.Sublist l := by
    intro α debug O l
    by_cases he : l.isEmpty
    · have hl : l = [] := by
        cases l with
        | nil => rfl
        | cons a rest => simp [List.isEmpty] at he
      subst hl
      exact List.Sublist.refl []
    · have he2 : l.isEmpty = false := by simpa using he
      have hr := optimizeLoop_spec O l
      rw [optimizeOpVec_fields debug O l he2 _ hr]
      exact optimizeLoop_sublist O (MAX_OPTIMIZATION_PASSES + 2) 0 l 0 0 0 _ hr
  refine ⟨hsub, fun α debug O l => (hsub α debug O l).length_le, ?_⟩
  intro α debug pn st inv l hpn hadj
  exact (optimizeOpVec_pure_noremove debug pn st inv l hpn
    (noAdjPairB_spec _ l hadj)).1

/-- Witness for C8: a two-element chain with all predicates false has no
eliminable operation; the optimizer returns it unchanged. -/
theorem C8_subsequence_witness :
    (OptimizeOpVec true (pureOracle (fun _ : Nat => false) (fun _ _ => false)
      (fun _ _ => false)) [7, 4]).ops = [7, 4] :=
  C8_subsequence.2.2 Nat true (fun _ => false) (fun _ _ => false)
    (fun _ _ => false) [7, 4] (by decide) (by decide)

/-- C9: with pure predicates, if `OptimizeOpVec` converges — it exits with its
pass counter within the bound rather than by exhausting it — then a second
`OptimizeOpVec` call on the resulting chain removes nothing: the chain comes
back unchanged and the second run's pass counter and both removal totals are
zero. -/
theorem C9_idempotent (α : Type) (debug debug2 : Bool) (pn : α → Bool)
    (st inv : α → α → Bool) (l : List α)
    (hconv : (OptimizeOpVec debug (pureOracle pn st inv) l).passes ≤
      MAX_OPTIMIZATION_PASSES) :
    (OptimizeOpVec debug2 (pureOracle pn st inv)
        (OptimizeOpVec debug (pureOracle pn st inv) l).ops).ops =
      (OptimizeOpVec debug (pureOracle pn st inv) l).ops ∧
    (OptimizeOpVec debug2 (pureOracle pn st inv)
        (OptimizeOpVec debug (pureOracle pn st inv) l).ops).passes = 0 ∧
    (OptimizeOpVec debug2 (pureOracle pn st inv)
        (OptimizeOpVec debug (pureOracle pn st inv) l).ops).totalNoops = 0 ∧
    (OptimizeOpVec debug2 (pureOracle pn st inv)
        (OptimizeOpVec debug (pureOracle pn st inv) l).ops).totalInverseOps
      = 0 := by
  by_cases he : l.isEmpty
  · have hl : l = [] := by
      cases l with
      | nil => rfl
      | cons a rest => simp [List.isEmpty] at he
    subst hl
    exact ⟨rfl, rfl, rfl, rfl⟩
  · have he2 : l.isEmpty = false := by simpa using he
    have hr := optimizeLoop_spec (pureOracle pn st inv) l
    have hfields := optimizeOpVec_fields debug (pureOracle pn st inv) l he2 _ hr
    rw [hfields] at hconv ⊢
    simp only at hconv ⊢
    obtain ⟨hcnt, hall⟩ := optimizeLoop_pure_converged pn st inv
      (MAX_OPTIMIZATION_PASSES + 2) 0 l 0 0 0 _ hr hconv
    have hpn : ∀ a ∈ ((optimizeLoop (pureOracle pn st inv)
        (MAX_OPTIMIZATION_PASSES + 2) 0 l 0 0 0).getD (l, 0, 0, 0, 0)).1,
        pn a = false := by
      intro a ha
      have := List.countP_eq_zero.mp hcnt a ha
      simpa using this
    exact optimizeOpVec_pure_noremove debug2 pn st inv _ hpn hall

/-- Witness for C9: with all predicates false the first run converges with
pass counter zero, and the second run is a no-op as the theorem states. -/
theorem C9_idempotent_witness :
    (OptimizeOpVec false (pureOracle (fun _ : Nat => false) (fun _ _ => false)
        (fun _ _ => false))
      (OptimizeOpVec true (pureOracle (fun _ : Nat => false) (fun _ _ => false)
        (fun _ _ => false)) [3, 5]).ops).ops =
      (OptimizeOpVec true (pureOracle (fun _ : Nat => false) (fun _ _ => false)
        (fun _ _ => false)) [3, 5]).ops :=
  (C9_idempotent Nat true false (fun _ => false) (fun _ _ => false)
    (fun _ _ => false) [3, 5] (by decide)).1

/-- Counterexample to C6 as stated: on the chain `[0, 1]` with a same-type
query that always answers true and an inverse query answering true on the
ordered pair `(0, 1)` but false on `(1, 0)`, the successor is not the inverse
of the cursor element — so under "the same type AND each is the exact inverse
of the other" nothing may be removed, and indeed the scan with the mutual
condition keeps the chain — yet `RemoveInverseOps` removes the pair and
returns count 1, because the source tests the inverse query in one direction
only. -/
theorem C6_counterexample :
    RemoveInverseOps (pureOracle (fun _ => false) (fun _ _ => true)
        (fun a b : Nat => a == 0 && b == 1)) 0 [0, 1] = ([], 1, 2) ∧
    (fun a b : Nat => a == 0 && b == 1) 1 0 = false ∧
    inversePairScan (fun a b : Nat => (a == 0 && b == 1) && (b == 0 && a == 1))
      [0, 1] = ([0, 1], 0) := by
  refine ⟨?_, ?_, ?_⟩ <;> decide

/-- C6 amended: `RemoveInverseOps` scans with a cursor from index 0, stops
once the cursor passes the second-to-last valid index, and whenever the
operation at the cursor and its immediate successor are the same type AND the
cursor operation reports the successor as its inverse — the directional test
`first.isSameType(second) && first.isInverse(second)`, which coincides with
mutual inversion only when the inverse query is symmetric, as the operation
contract intends — removes both, increments the pair count, and moves the
cursor back one position clamped at 0; otherwise it advances the cursor by
one.  Formally: with pure predicates, its chain and count equal the
`inversePairScan` of that directional condition, a scan written exactly as the
claim describes the cursor mechanics. -/
theorem C6_amended_scan (α : Type) (pn : α → Bool) (st inv : α → α → Bool)
    (t : Nat) (l : List α) :
    ((RemoveInverseOps (pureOracle pn st inv) t l).1,
      (RemoveInverseOps (pureOracle pn st inv) t l).2.1) =
      inversePairScan (fun a b => st a b && inv a b) l := by
  have hspec := removeInverseOps_spec (pureOracle pn st inv) t l
  have h := removeInverseGo_pure_scan pn st inv (3 * l.length + 3) t l 0 0
    (RemoveInverseOps (pureOracle pn st inv) t l) (le_refl 0) hspec
  rw [show ((0 : Int).toNat) = 0 from rfl] at h
  rw [inversePairScan, h]
  rfl

/-- Counterexample to C1 as stated: a nine-element chain whose (stateful)
identity query makes every round remove exactly one operation drives the
scheduler through nine change-making rounds — the loop `while(passes<=8)`
admits one more change-making round than the stated maximum of eight. -/
theorem C1_counterexample :
    ¬ (OptimizeOpVec true nineRoundOracle (List.range 9)).passes ≤
      MAX_OPTIMIZATION_PASSES := by
  decide

/-- C1 amended: for every chain the scheduler repeatedly runs No-Op
Elimination then Inverse-Pair Cancellation and stops as soon as one full round
removes zero operations by either rule (returning that round's chain with
counters untouched); but the loop condition `passes <= 8` admits one more
change-making round than `MAX_OPTIMIZATION_PASSES`: at most 9 change-making
rounds execute, and on a chain whose predicates make every round remove
something (e.g. the nine-element run below) exactly 9 passes are executed. -/
theorem C1_amended_pass_bound :
    (∀ (α : Type) (debug : Bool) (O : Oracle α) (l : List α),
      (OptimizeOpVec debug O l).passes ≤ MAX_OPTIMIZATION_PASSES + 1) ∧
    (∀ (α : Type) (O : Oracle α) (fuel t : Nat) (l : List α)
      (passes tn ti : Nat),
      passes ≤ MAX_OPTIMIZATION_PASSES →
      (runRound O t l).2.1 = 0 →
      (runRound O t l).2.2.1 = 0 →
      optimizeLoop O (fuel + 1) t l passes tn ti =
        some ((runRound O t l).1, passes, tn, ti, (runRound O t l).2.2.2)) ∧
    (OptimizeOpVec true nineRoundOracle (List.range 9)).passes =
      MAX_OPTIMIZATION_PASSES + 1 := by
  refine ⟨?_, ?_, by decide⟩
  · intro α debug O l
    by_cases he : l.isEmpty
    · have hl : l = [] := by
        cases l with
        | nil => rfl
        | cons a rest => simp [List.isEmpty] at he
      subst hl
      exact Nat.zero_le _
    · have he2 : l.isEmpty = false := by simpa using he
      have hr := optimizeLoop_spec O l
      rw [optimizeOpVec_fields debug O l he2 _ hr]
      exact optimizeLoop_passes_le O (MAX_OPTIMIZATION_PASSES + 2) 0 l 0 0 0 _
        (by omega) hr
  · intro α O fuel t l passes tn ti hp hn hi
    exact optimizeLoop_break O fuel t l passes tn ti hp hn hi

/-- Witness for C1's amended theorem: with the all-false predicates the very
first round of the scheduler loop removes nothing, so with the pass counter at
0 (within the bound) the loop returns immediately with that round's chain and
untouched counters, as the theorem's stop clause states. -/
theorem C1_amended_pass_bound_witness :
    optimizeLoop trivOracle 1 0 [3] 0 0 0 =
      some ((runRound trivOracle 0 [3]).1, 0, 0, 0,
        (runRound trivOracle 0 [3]).2.2.2) :=
  C1_amended_pass_bound.2.1 Nat trivOracle 0 0 [3] 0 0 0 (by decide) (by decide)
    (by decide)

/-- Counterexample to C2 as stated: the nine-element run exhausts the bound
(nine change-making rounds, pass counter 9) yet its log contains no
max-passes message; while the eight-element run converges — its ninth round
removes zero operations — with pass counter exactly 8, and its log does
contain the max-passes message.  The diagnostic is thus absent in the
bound-exhausted case and present in a converged case. -/
theorem C2_counterexample :
    (OptimizeOpVec true nineRoundOracle (List.range 9)).passes =
      MAX_OPTIMIZATION_PASSES + 1 ∧
    (OptimizeOpVec true nineRoundOracle (List.range 9)).log =
      [LogEvent.preOptimize, LogEvent.summary 9 0 9 9 0] ∧
    (OptimizeOpVec true eightRoundOracle (List.range 8)).passes =
      MAX_OPTIMIZATION_PASSES ∧
    (OptimizeOpVec true eightRoundOracle (List.range 8)).log =
      [LogEvent.preOptimize, LogEvent.maxPassesReached 8,
        LogEvent.summary 8 0 8 8 0] := by
  refine ⟨?_, ?_, ?_, ?_⟩ <;> decide

/-- C2 amended: `OptimizeOpVec` always returns normally with the chain in the
state the loop reached, and the max-passes diagnostic is emitted exactly when
the run ends with pass counter equal to `MAX_OPTIMIZATION_PASSES` — which,
since the loop admits a ninth change-making round, means exactly eight
change-making rounds followed by a zero-removal round (a converged run); in
the genuinely bound-exhausted case the counter is 9 and no diagnostic is
emitted. -/
theorem C2_amended_diagnostic (α : Type) (debug : Bool) (O : Oracle α)
    (l : List α) :
    (LogEvent.maxPassesReached MAX_OPTIMIZATION_PASSES ∈
        (OptimizeOpVec debug O l).log) ↔
      (OptimizeOpVec debug O l).passes = MAX_OPTIMIZATION_PASSES := by
  by_cases he : l.isEmpty
  · have hl : l = [] := by
      cases l with
      | nil => rfl
      | cons a rest => simp [List.isEmpty] at he
    subst hl
    simp [OptimizeOpVec, MAX_OPTIMIZATION_PASSES]
  · have he2 : l.isEmpty = false := by simpa using he
    have hr := optimizeLoop_spec O l
    rw [optimizeOpVec_fields debug O l he2 _ hr]
    set r := (optimizeLoop O (MAX_OPTIMIZATION_PASSES + 2) 0 l 0 0 0).getD
      (l, 0, 0, 0, 0) with hrd
    simp only
    by_cases hp : r.2.1 = MAX_OPTIMIZATION_PASSES
    · simp only [hp, beq_self_eq_true, if_true]
      cases debug <;> simp
    · have hb : (r.2.1 == MAX_OPTIMIZATION_PASSES) = false :=
        beq_eq_false_iff_ne.mpr hp
      simp only [hb, Bool.false_eq_true, if_false]
      cases debug <;> simp [hp]
